import Mathlib

/-!
# SnapCache: the RESP codec (`resp.go`) and the session (`main.go`)

A shallow embedding of the encoder `Value.Marshal`, of the decoder
`NewResp.Read` and of the session loop `handleConnection` / `processCommand`
of SnapCache, followed by their properties.

Modelling conventions.

* A byte is a natural number (its ASCII code on the wire); a Go `string` or
  `[]byte` is a `List Nat`.  Statements that quantify over byte strings hold
  for every list, in particular for those whose entries are below 256.
* Go's `int` is the 64-bit signed integer: an `Int` together with the explicit
  range checks of `strconv.Atoi` and the explicit wrap-around `wrap64`.
* A `net.Conn` is the list of chunks that its successive `Read` calls can still
  deliver.  A `Read` into a buffer of `k` bytes returns at most `k` bytes of the
  first chunk and leaves the rest of that chunk for the next call; when no byte
  is left the connection reports `io.EOF`.
* A Go function returning `(Value, error)` returns an `Outcome`: `ok v` for
  `(v, nil)`, `error e` for `(Value{}, e)`, `panic` for a run-time panic
  (slice bounds out of range, `makeslice: len out of range`).
* `make` with a non-negative size is taken to succeed: the memory of the machine
  and the allocation ceiling of the Go runtime (`maxAlloc`), above which `make`
  panics, are not modelled.  The statements about bulk strings are made for
  payloads that the stream delivers, or bound the length by `maxAlloc`.
* A session is the content of its `bytes.Buffer` together with the bytes it has
  written to the connection.
-/

namespace SnapCache

/-! ## Bytes and the wire constants -/

/-- The bytes of an ASCII string literal. -/
def ascii (s : String) : List Nat := s.toList.map Char.toNat

/-- Type prefix of a simple string, `'+'`. -/
def STRING : Nat := 43
/-- Type prefix of an error, `'-'`. -/
def ERROR : Nat := 45
/-- Type prefix of an integer, `':'`. -/
def INTEGER : Nat := 58
/-- Type prefix of a bulk string, `'$'`. -/
def BULK : Nat := 36
/-- Type prefix of an array, `'*'`. -/
def ARRAY : Nat := 42
/-- Carriage return, `'\r'`. -/
def CR : Nat := 13
/-- Line feed, `'\n'`. -/
def LF : Nat := 10

/-! ## The data model -/

/-- The Go struct `Value`: all five fields are always present, `typ` is the tag. -/
inductive Value where
  | mk (typ : String) (str : List Nat) (num : Int) (bulk : List Nat) (array : List Value)

/-- Field `typ`. -/
def Value.typ : Value → String
  | .mk typ _ _ _ _ => typ

/-- Field `str`. -/
def Value.str : Value → List Nat
  | .mk _ str _ _ _ => str

/-- Field `num`. -/
def Value.num : Value → Int
  | .mk _ _ num _ _ => num

/-- Field `bulk`. -/
def Value.bulk : Value → List Nat
  | .mk _ _ _ bulk _ => bulk

/-- Field `array`. -/
def Value.array : Value → List Value
  | .mk _ _ _ _ array => array

/-- The literal `Value{typ: "string", str: s}`. -/
def simpleString (s : List Nat) : Value := .mk "string" s 0 [] []
/-- The literal `Value{typ: "error", str: s}`. -/
def errorValue (s : List Nat) : Value := .mk "error" s 0 [] []
/-- The literal `Value{typ: "integer", num: n}`. -/
def integerValue (n : Int) : Value := .mk "integer" [] n [] []
/-- The literal `Value{typ: "bulk", bulk: b}`. -/
def bulkValue (b : List Nat) : Value := .mk "bulk" [] 0 b []
/-- The literal `Value{typ: "null"}`. -/
def nullValue : Value := .mk "null" [] 0 [] []
/-- The literal `Value{typ: "array", array: items}`. -/
def arrayValue (items : List Value) : Value := .mk "array" [] 0 [] items

/-! ## `strconv` -/

/-- Decimal digits of `n`, most significant first, pushed in front of `acc`;
`fuel` bounds the number of digits. -/
def digitsAux : Nat → Nat → List Nat → List Nat
  | 0, _, acc => acc
  | fuel + 1, n, acc =>
    if n / 10 = 0 then (48 + n % 10) :: acc
    else digitsAux fuel (n / 10) ((48 + n % 10) :: acc)

/-- Decimal rendering of a natural number (`"0"` for zero). -/
def natDigits (n : Nat) : List Nat := digitsAux (n + 1) n []

/-- The function `strconv.Itoa`: base-10 rendering, with a leading `'-'` when negative. -/
def Itoa (i : Int) : List Nat :=
  if i < 0 then 45 :: natDigits i.natAbs else natDigits i.natAbs

/-- The errors that the decoder can return. -/
inductive GoError where
  /-- The error `io.EOF`. -/
  | EOF
  /-- The error `io.ErrUnexpectedEOF`. -/
  | ErrUnexpectedEOF
  /-- A `*strconv.NumError` (invalid syntax or value out of range). -/
  | NumError
  /-- The error `errors.New("unknown RESP type")`. -/
  | unknownRESPType
  /-- The error `errors.New("unknown type")`. -/
  | unknownType
  deriving DecidableEq, Repr

/-- An ASCII decimal digit. -/
def isDigit (c : Nat) : Bool := 48 ≤ c && c ≤ 57

/-- Value of a string of decimal digits. -/
def digitsValue (s : List Nat) : Nat := s.foldl (fun a c => 10 * a + (c - 48)) 0

/-- The function `strconv.Atoi` for the 64-bit `int`: an optional sign `'+'` or `'-'`,
then one or more decimal digits, the value within `[-2^63, 2^63 - 1]`. -/
def Atoi (s : List Nat) : Except GoError Int :=
  let neg := s.head? = some 45
  let body := if s.head? = some 45 ∨ s.head? = some 43 then s.tail else s
  if body = [] then .error .NumError
  else if ¬ body.all isDigit then .error .NumError
  else if neg then
    (if digitsValue body > 2 ^ 63 then .error .NumError else .ok (-(digitsValue body : Int)))
  else
    (if digitsValue body ≥ 2 ^ 63 then .error .NumError else .ok (digitsValue body : Int))

/-- Wrap-around of 64-bit signed arithmetic. -/
def wrap64 (i : Int) : Int := (i + 2 ^ 63) % 2 ^ 64 - 2 ^ 63

/-! ## The encoder -/

mutual
/-- The method `Value.Marshal`, with `marshalArray`, `marshalBulk`, `marshalString`,
`marshallNull` and `marshallError` inlined at their `case`. -/
def Marshal : Value → List Nat
  | .mk typ str _ bulk array =>
    match typ with
    | "array" => [ARRAY] ++ Itoa array.length ++ [CR, LF] ++ marshalItems array
    | "bulk" => [BULK] ++ Itoa bulk.length ++ [CR, LF] ++ bulk ++ [CR, LF]
    | "string" => [STRING] ++ str ++ [CR, LF]
    | "null" => [36, 45, 49, 13, 10]
    | "error" => [ERROR] ++ str ++ [CR, LF]
    | _ => []
/-- The loop of `marshalArray`: the encodings of the elements, appended in index order. -/
def marshalItems : List Value → List Nat
  | [] => []
  | v :: vs => Marshal v ++ marshalItems vs
end

/-! ## The transport -/

/-- What a connection can still deliver: the chunks of its future reads. -/
abbrev Transport := List (List Nat)

/-- The method `conn.Read(buf)` with `len(buf) = k`: `none` is `io.EOF`, otherwise the bytes
read and the connection afterwards.  A read never returns zero bytes without an
error, so empty chunks are skipped. -/
def connRead (k : Nat) : Transport → Option (List Nat × Transport)
  | [] => none
  | c :: cs =>
    if c = [] then connRead k cs
    else if c.length ≤ k then some (c, cs)
    else some (c.take k, c.drop k :: cs)

/-- Result of a Go function that returns `(α, error)`. -/
inductive Outcome (α : Type) where
  /-- Returned a value and a nil error. -/
  | ok (v : α)
  /-- Returned the zero value and an error. -/
  | error (e : GoError)
  /-- A run-time panic: the call does not return. -/
  | panic
  /-- The fuel of the model is used up (never the outcome of `Read`: `Read_settled`). -/
  | outOfFuel

/-- The function `io.ReadFull(conn, buf)` with `len(buf) = need`, having read `acc` so far:
reads until the buffer is full; `io.EOF` when nothing was read, `io.ErrUnexpectedEOF`
when the stream ends after some bytes. -/
def ReadFullAux (acc : List Nat) : Nat → Transport → Outcome (List Nat) × Transport
  | 0, t => (.ok acc, t)
  | _ + 1, [] => (.error (if acc = [] then .EOF else .ErrUnexpectedEOF), [])
  | need + 1, c :: cs =>
    if c.length ≤ need + 1 then ReadFullAux (acc ++ c) (need + 1 - c.length) cs
    else (.ok (acc ++ c.take (need + 1)), c.drop (need + 1) :: cs)

/-- The function `io.ReadFull(conn, buf)` with `len(buf) = need`. -/
def ReadFull (need : Nat) (t : Transport) : Outcome (List Nat) × Transport :=
  ReadFullAux [] need t

/-- Size of the buffer of `bufio.NewReader`. -/
def bufioSize : Nat := 4096

/-- The bytes of `s` up to and including the first `delim`. -/
def throughDelim (delim : Nat) : List Nat → List Nat
  | [] => []
  | c :: cs => if c = delim then [c] else c :: throughDelim delim cs

/-- The method `ReadBytes(delim)` of a `bufio.Reader` over the connection that has buffered
`acc` (without `delim`) so far: fills its buffer by one `conn.Read` at a time until
the delimiter shows up, and returns the bytes through the delimiter.  The bytes
read beyond the delimiter stay in the reader's buffer. -/
def ReadBytesFuel (delim : Nat) : Nat → List Nat → Transport → Outcome (List Nat) × Transport
  | 0, _, t => (.outOfFuel, t)
  | fuel + 1, acc, t =>
    match connRead (bufioSize - acc.length % bufioSize) t with
    | none => (.error .EOF, [])
    | some (d, t1) =>
      if delim ∈ d then (.ok (acc ++ throughDelim delim d), t1)
      else ReadBytesFuel delim fuel (acc ++ d) t1

/-- The call `bufio.NewReader(conn).ReadBytes(delim)`; the fuel is the number of bytes of the
stream plus one, every fill consuming at least one byte. -/
def ReadBytes (delim : Nat) (t : Transport) : Outcome (List Nat) × Transport :=
  ReadBytesFuel delim (t.flatten.length + 1) [] t

/-! ## The decoder -/

/-- The method `NewResp.readValue`. -/
def readValue (typ : Nat) (t : Transport) : Outcome Value × Transport :=
  match ReadBytes LF t with
  | (.ok valueBytes, t1) =>
    if valueBytes.length < 2 then (.panic, t1)
    else
      let valueStr := valueBytes.take (valueBytes.length - 2)
      if typ = STRING then (.ok (.mk "string" valueStr 0 [] []), t1)
      else if typ = ERROR then (.ok (.mk "error" valueStr 0 [] []), t1)
      else if typ = INTEGER then
        match Atoi valueStr with
        | .error e => (.error e, t1)
        | .ok num => (.ok (.mk "integer" [] num [] []), t1)
      else (.error .unknownType, t1)
  | (.error e, t1) => (.error e, t1)
  | (.panic, t1) => (.panic, t1)
  | (.outOfFuel, t1) => (.outOfFuel, t1)

/-- The method `NewResp.readString`. -/
def readString (t : Transport) : Outcome Value × Transport := readValue STRING t

/-- The method `NewResp.readError`. -/
def readError (t : Transport) : Outcome Value × Transport := readValue ERROR t

/-- The method `NewResp.readInteger`. -/
def readInteger (t : Transport) : Outcome Value × Transport := readValue INTEGER t

/-- The method `NewResp.readBulk`.  The call `make([]byte, length+2)` panics on a negative
size and is taken to succeed on any other: the allocation ceiling of the runtime
(`maxAlloc`), above which it panics too, and the memory of the machine are not
modelled. -/
def readBulk (t : Transport) : Outcome Value × Transport :=
  match connRead 32 t with
  | none => (.error .EOF, [])
  | some (lengthBuf, t1) =>
    let n := lengthBuf.length
    if n < 2 then (.panic, t1)
    else
      match Atoi (lengthBuf.take (n - 2)) with
      | .error e => (.error e, t1)
      | .ok length =>
        if length = -1 then (.ok (.mk "null" [] 0 [] []), t1)
        else if wrap64 (length + 2) < 0 then (.panic, t1)
        else
          match ReadFull (wrap64 (length + 2)).toNat t1 with
          | (.ok bulkData, t2) =>
            if length < 0 ∨ (bulkData.length : Int) < length then (.panic, t2)
            else (.ok (.mk "bulk" [] 0 (bulkData.take length.toNat) []), t2)
          | (.error e, t2) => (.error e, t2)
          | (.panic, t2) => (.panic, t2)
          | (.outOfFuel, t2) => (.outOfFuel, t2)

/-- The loop of `readArray`: `count` calls of `Read`, stopping at the first error. -/
def readItems (rd : Transport → Outcome Value × Transport) :
    Nat → Transport → Outcome (List Value) × Transport
  | 0, t => (.ok [], t)
  | count + 1, t =>
    match rd t with
    | (.ok value, t1) =>
      match readItems rd count t1 with
      | (.ok rest, t2) => (.ok (value :: rest), t2)
      | (.error e, t2) => (.error e, t2)
      | (.panic, t2) => (.panic, t2)
      | (.outOfFuel, t2) => (.outOfFuel, t2)
    | (.error e, t1) => (.error e, t1)
    | (.panic, t1) => (.panic, t1)
    | (.outOfFuel, t1) => (.outOfFuel, t1)

/-- The method `NewResp.readArray`, the recursive `Read` being `rd`.  The call
`make([]Value, length)` panics on a negative count and is taken to succeed on any
other, as in `readBulk`. -/
def readArray (rd : Transport → Outcome Value × Transport) (t : Transport) :
    Outcome Value × Transport :=
  match connRead 32 t with
  | none => (.error .EOF, [])
  | some (lengthBuf, t1) =>
    let n := lengthBuf.length
    if n < 2 then (.panic, t1)
    else
      match Atoi (lengthBuf.take (n - 2)) with
      | .error e => (.error e, t1)
      | .ok length =>
        if length < 0 then (.panic, t1)
        else
          match readItems rd length.toNat t1 with
          | (.ok array, t2) => (.ok (.mk "array" [] 0 [] array), t2)
          | (.error e, t2) => (.error e, t2)
          | (.panic, t2) => (.panic, t2)
          | (.outOfFuel, t2) => (.outOfFuel, t2)

/-- The method `NewResp.Read`, `fuel` bounding the nesting depth of arrays. -/
def readFuel : Nat → Transport → Outcome Value × Transport
  | 0, t => (.outOfFuel, t)
  | fuel + 1, t =>
    match connRead 1 t with
    | none => (.error .EOF, [])
    | some (buf, t1) =>
      let typ := buf.headD 0
      if typ = STRING then readString t1
      else if typ = ERROR then readError t1
      else if typ = INTEGER then readInteger t1
      else if typ = BULK then readBulk t1
      else if typ = ARRAY then readArray (fun t2 => readFuel fuel t2) t1
      else (.error .unknownRESPType, t1)

/-- The method `NewResp.Read` on a connection; the fuel is the number of bytes of the stream
plus one, every nested call first consuming its type byte. -/
def Read (t : Transport) : Outcome Value × Transport :=
  readFuel (t.flatten.length + 1) t

/-! ## Allocation -/

/-- The allocation ceiling `maxAlloc` of the Go runtime on 64-bit platforms: `make([]byte, n)`
panics (`makeslice: len out of range`) for `n` above it.  The model of `make` in
`readBulk` and `readArray` has no ceiling; a statement that would otherwise reach
lengths above the ceiling is made for lengths up to it. -/
def maxAlloc : Nat := 2 ^ 48

/-! ## Adequacy of the fuel -/

/-- A call returned, raised an error or panicked (the fuel was not used up), and took bytes from
the front of the stream only. -/
def Settled {α : Type} (r : Outcome α × Transport) (t : Transport) : Prop :=
  r.1 ≠ .outOfFuel ∧ r.2.flatten.length ≤ t.flatten.length

/-! ## Decimal spellings -/

/-- A nonempty string of ASCII decimal digits. -/
def isDigits (ds : List Nat) : Bool := !ds.isEmpty && ds.all isDigit

/-- Follows the spec's words, "a base-10 signed integer (optional leading `-`)": `t` is one or
more decimal digits, optionally preceded by `'-'`, and spells the 64-bit integer `n`. -/
def decimalSpelling (t : List Nat) (n : Int) : Bool :=
  decide (-2 ^ 63 ≤ n) && decide (n < 2 ^ 63) &&
    ((isDigits t && n == (digitsValue t : Int)) ||
      (t.head? == some 45 && isDigits t.tail && n == -(digitsValue t.tail : Int)))

/-- The spelling `decimalSpelling`, or one or more decimal digits preceded by `'+'`. -/
def signedSpelling (t : List Nat) (n : Int) : Bool :=
  decimalSpelling t n ||
    (t.head? == some 43 && isDigits t.tail && n == (digitsValue t.tail : Int) &&
      decide (n < 2 ^ 63))

/-! ## The session (`main.go`) -/

/-- The call `strings.Contains(s, "\r\n")`. -/
def containsCRLF : List Nat → Bool
  | [] => false
  | c :: rest => (c == CR && rest.head? == some LF) || containsCRLF rest

/-- The call `strings.Split(s, "\r\n")`, `cur` being the part under construction: the parts
between the successive, non-overlapping CR LF pairs. -/
def splitCRLFAux (cur : List Nat) : List Nat → List (List Nat)
  | [] => [cur]
  | [c] => [cur ++ [c]]
  | c :: d :: rest =>
    if c = CR ∧ d = LF then cur :: splitCRLFAux [] rest
    else splitCRLFAux (cur ++ [c]) (d :: rest)

/-- The call `strings.Split(s, "\r\n")`. -/
def splitCRLF (s : List Nat) : List (List Nat) := splitCRLFAux [] s

/-- What `processCommand` works on: the `bytes.Buffer` of the session and the bytes written to
the connection so far. -/
structure Session where
  /-- Content of the `bytes.Buffer`. -/
  buffer : List Nat
  /-- Everything written to the connection by `conn.Write`, in order. -/
  written : List Nat
  deriving DecidableEq, Repr

/-- The function `processCommand` of `main.go`. -/
def processCommand (s : Session) : Session :=
  let command := s.buffer
  if containsCRLF command then
    let parts := splitCRLF command
    if parts.length > 0 then
      if parts.getD 0 [] = ascii "*1" ∧ parts.length > 2 ∧ parts.getD 2 [] = ascii "PING" then
        { buffer := [], written := s.written ++ ascii "+PONG\r\n" }
      else
        { buffer := [], written := s.written ++ ascii "-ERR unknown command\r\n" }
    else s
  else s

/-- The loop of `handleConnection`: read at most 1024 bytes, append them to the buffer, call
`processCommand`; the loop ends when the read fails.  The branch `n == 0` is not
taken, a read never returning zero bytes without an error (see `connRead`). -/
def handleConnectionFuel : Nat → Transport → Session → Session
  | 0, _, s => s
  | fuel + 1, t, s =>
    match connRead 1024 t with
    | none => s
    | some (readBuffer, t1) =>
      handleConnectionFuel fuel t1
        (processCommand { buffer := s.buffer ++ readBuffer, written := s.written })

/-- The function `handleConnection` on a connection that delivers `t` and is then closed; the
fuel is the number of bytes of the stream plus one, every read taking at least one
byte. -/
def handleConnection (t : Transport) : Session :=
  handleConnectionFuel (t.flatten.length + 1) t { buffer := [], written := [] }

/-! ## Canonical values -/

/-- The values built only from the variants simple string and error (text without CR or LF),
bulk string, null, and array of such values, the fields unused by the variant
being at their zero value. -/
inductive Canonical : Value → Prop where
  | string (s : List Nat) : CR ∉ s → LF ∉ s → Canonical (simpleString s)
  | error (s : List Nat) : CR ∉ s → LF ∉ s → Canonical (errorValue s)
  | bulk (b : List Nat) : Canonical (bulkValue b)
  | null : Canonical nullValue
  | array (items : List Value) : (∀ v ∈ items, Canonical v) → Canonical (arrayValue items)

/-! ## The encoder: wire format -/

theorem marshalItems_eq_flatten (items : List Value) :
    marshalItems items = (items.map Marshal).flatten := by
  induction items with
  | nil => simp [marshalItems]
  | cons v vs ih => simp [marshalItems, ih]

/-! ## Decimal rendering and parsing -/

theorem digitsValue_append_single (ds : List Nat) (d : Nat) :
    digitsValue (ds ++ [d]) = 10 * digitsValue ds + (d - 48) := by
  simp [digitsValue, List.foldl_append]

theorem digitsAux_spec : ∀ (fuel n : Nat) (acc : List Nat), n < fuel →
    ∃ ds : List Nat, digitsAux fuel n acc = ds ++ acc ∧ ds ≠ [] ∧
      (∀ c ∈ ds, isDigit c = true) ∧ digitsValue ds = n ∧
      (∀ k, 1 ≤ k → n < 10 ^ k → ds.length ≤ k) := by
  intro fuel
  induction fuel with
  | zero => intro n acc h; omega
  | succ fuel ih =>
    intro n acc h
    unfold digitsAux
    by_cases h0 : n / 10 = 0
    · refine ⟨[48 + n % 10], by simp [h0], by simp, ?_, ?_, ?_⟩
      · intro c hc
        simp at hc
        subst hc
        have : n % 10 < 10 := Nat.mod_lt _ (by omega)
        simp only [isDigit, Bool.and_eq_true, decide_eq_true_eq]
        omega
      · have : n < 10 := by omega
        simp [digitsValue]
        omega
      · intro k hk _
        simpa using hk
    · obtain ⟨ds, hds, hne, hdig, hval, hlen⟩ := ih (n / 10) ((48 + n % 10) :: acc) (by omega)
      refine ⟨ds ++ [48 + n % 10], by simp [h0, hds], by simp, ?_, ?_, ?_⟩
      · intro c hc
        rcases List.mem_append.mp hc with hc | hc
        · exact hdig c hc
        · simp at hc
          subst hc
          have : n % 10 < 10 := Nat.mod_lt _ (by omega)
          simp only [isDigit, Bool.and_eq_true, decide_eq_true_eq]
          omega
      · rw [digitsValue_append_single, hval]
        omega
      · intro k hk hnk
        obtain ⟨j, rfl⟩ : ∃ j, k = j + 1 := ⟨k - 1, by omega⟩
        have hj : 1 ≤ j := by
          rcases Nat.eq_zero_or_pos j with hj0 | hj0
          · subst hj0
            simp at hnk
            omega
          · exact hj0
        have : n / 10 < 10 ^ j := by
          rw [pow_succ] at hnk
          omega
        have := hlen j hj this
        simp
        omega

theorem natDigits_spec (n : Nat) :
    natDigits n ≠ [] ∧ (∀ c ∈ natDigits n, isDigit c = true) ∧ digitsValue (natDigits n) = n ∧
      (∀ k, 1 ≤ k → n < 10 ^ k → (natDigits n).length ≤ k) := by
  obtain ⟨ds, hds, hne, hdig, hval, hlen⟩ := digitsAux_spec (n + 1) n [] (by omega)
  have : natDigits n = ds := by simp [natDigits, hds]
  rw [this]
  exact ⟨hne, hdig, hval, hlen⟩

theorem Itoa_natCast (n : Nat) : Itoa (n : Int) = natDigits n := by
  simp [Itoa]

theorem Atoi_of_digits (ds : List Nat) (hne : ds ≠ []) (hdig : ∀ c ∈ ds, isDigit c = true)
    (hval : digitsValue ds < 2 ^ 63) : Atoi ds = .ok (digitsValue ds : Int) := by
  obtain ⟨c, cs, rfl⟩ := List.exists_cons_of_ne_nil hne
  have hc : isDigit c = true := hdig c (by simp)
  have h45 : c ≠ 45 := by
    intro h; subst h; simp [isDigit] at hc
  have h43 : c ≠ 43 := by
    intro h; subst h; simp [isDigit] at hc
  have hall : (c :: cs).all isDigit = true := by
    rw [List.all_eq_true]
    exact hdig
  unfold Atoi
  simp only [List.head?_cons, Option.some.injEq, h45, h43, or_self, if_false]
  rw [if_neg (by simp), if_neg (by simp [hall]), if_neg (by omega)]

theorem Atoi_natDigits (n : Nat) (h : n < 2 ^ 63) : Atoi (natDigits n) = .ok (n : Int) := by
  obtain ⟨hne, hdig, hval, _⟩ := natDigits_spec n
  have := Atoi_of_digits (natDigits n) hne hdig (by rw [hval]; exact h)
  rw [hval] at this
  exact this

theorem natDigits_length_le (n : Nat) (h : n < 2 ^ 63) : (natDigits n).length ≤ 19 := by
  obtain ⟨_, _, _, hlen⟩ := natDigits_spec n
  exact hlen 19 (by omega) (by norm_num at h ⊢; omega)

theorem wrap64_of_range (i : Int) (h0 : 0 ≤ i) (h1 : i < 2 ^ 63) : wrap64 i = i := by
  unfold wrap64
  norm_num at h1 ⊢
  omega

/-! ## Reading from the transport -/

theorem ReadFullAux_of_enough : ∀ (t : Transport) (acc : List Nat) (need : Nat),
    need ≤ t.flatten.length →
    (ReadFullAux acc need t).1 = .ok (acc ++ t.flatten.take need) := by
  intro t
  induction t with
  | nil =>
    intro acc need h
    have : need = 0 := by simpa using h
    subst this
    simp [ReadFullAux]
  | cons c cs ih =>
    intro acc need h
    cases need with
    | zero => simp [ReadFullAux]
    | succ need =>
      unfold ReadFullAux
      by_cases hc : c.length ≤ need + 1
      · rw [if_pos hc, ih (acc ++ c) (need + 1 - c.length) (by simp only [List.flatten_cons, List.length_append] at h; omega)]
        simp [List.take_append_eq_append_take, List.take_of_length_le hc]
      · rw [if_neg hc]
        simp [List.take_append_eq_append_take]
        have : need + 1 - c.length = 0 := by omega
        simp [this]

theorem connRead_header (n : Nat) (hn : n < 2 ^ 63) (cs : Transport) :
    connRead 32 ((natDigits n ++ [CR, LF]) :: cs) = some (natDigits n ++ [CR, LF], cs) := by
  have hl := natDigits_length_le n hn
  have hlen : (natDigits n ++ [CR, LF]).length ≤ 32 := by
    simp only [List.length_append, List.length_cons, List.length_nil]
    omega
  unfold connRead
  rw [if_neg (by simp), if_pos hlen]

theorem readBulk_of_header (n : Nat) (hn : n + 2 < 2 ^ 63) (cs : Transport)
    (h : n + 2 ≤ cs.flatten.length) :
    (readBulk ((natDigits n ++ [CR, LF]) :: cs)).1 = .ok (bulkValue (cs.flatten.take n)) := by
  have hn63 : n < 2 ^ 63 := by omega
  have htake : (natDigits n ++ [CR, LF]).take ((natDigits n ++ [CR, LF]).length - 2)
      = natDigits n := by
    simp
  have hwrap : wrap64 ((n : Int) + 2) = ((n + 2 : Nat) : Int) := by
    rw [wrap64_of_range _ (by omega) (by norm_num at hn ⊢; omega)]
    simp
  have hfull := ReadFullAux_of_enough cs [] (n + 2) h
  have h1 : ¬ ((natDigits n ++ [CR, LF]).length < 2) := by simp
  have h2 : ¬ ((n : Int) = -1) := by omega
  have h3 : ¬ (((n + 2 : Nat) : Int) < 0) := by omega
  have h4 : ¬ ((n : Int) < 0 ∨ ((List.take (n + 2) cs.flatten).length : Int) < (n : Int)) := by
    simp only [List.length_take]
    omega
  unfold readBulk
  rw [connRead_header n hn63 cs]
  dsimp only
  rw [if_neg h1, htake, Atoi_natDigits n hn63]
  dsimp only
  rw [if_neg h2, hwrap, if_neg h3, Int.toNat_ofNat]
  unfold ReadFull
  rcases hrf : ReadFullAux [] (n + 2) cs with ⟨o, t2⟩
  rw [hrf] at hfull
  simp only [List.nil_append] at hfull
  subst hfull
  dsimp only
  rw [if_neg h4]
  simp [bulkValue, List.take_take]

/-- The decoder on a bulk string whose length line is delivered by its own read: the payload
is the first `len(b)` bytes that follow, and the next two bytes are consumed
whatever they are. -/
theorem Read_bulk_of_header (b : List Nat) (x y : Nat) (rest : List Nat) (cs : Transport)
    (hlen : b.length + 2 < 2 ^ 63) (hcs : cs.flatten = b ++ [x, y] ++ rest) :
    (Read ([BULK] :: (Itoa (b.length : Int) ++ [CR, LF]) :: cs)).1 = .ok (bulkValue b) ∧
    (Read ((BULK :: (Itoa (b.length : Int) ++ [CR, LF])) :: cs)).1 = .ok (bulkValue b) := by
  have hb := readBulk_of_header b.length hlen cs (by simp [hcs])
  have htk : cs.flatten.take b.length = b := by simp [hcs]
  rw [htk] at hb
  rw [Itoa_natCast]
  have hne : natDigits b.length ≠ [] := (natDigits_spec b.length).1
  constructor
  · simp only [Read, List.flatten_cons, List.length_append, List.length_cons, List.length_nil,
      readFuel, connRead]
    simpa [BULK, STRING, ERROR, INTEGER] using hb
  · have h2 : ¬ ((BULK :: (natDigits b.length ++ [CR, LF])).length ≤ 1) := by simp
    simp only [Read, readFuel, connRead]
    rw [if_neg (by simp), if_neg h2]
    simpa [BULK, STRING, ERROR, INTEGER] using hb

theorem connRead_spec : ∀ (t : Transport) (k : Nat), 1 ≤ k → t.flatten ≠ [] →
    ∃ d t1, connRead k t = some (d, t1) ∧ d ≠ [] ∧ d.length ≤ k ∧
      t.flatten = d ++ t1.flatten := by
  intro t
  induction t with
  | nil => intro k _ h; simp at h
  | cons c cs ih =>
    intro k hk h
    unfold connRead
    by_cases hc : c = []
    · subst hc
      rw [if_pos rfl]
      simpa using ih k hk (by simpa using h)
    · rw [if_neg hc]
      by_cases hl : c.length ≤ k
      · rw [if_pos hl]
        exact ⟨c, cs, rfl, hc, hl, by simp⟩
      · rw [if_neg hl]
        refine ⟨c.take k, c.drop k :: cs, rfl, ?_, ?_, ?_⟩
        · intro h0
          rcases List.take_eq_nil_iff.mp h0 with h1 | h1
          · omega
          · exact hc h1
        · simp
        · simp [← List.append_assoc]

theorem connRead_eof : ∀ (t : Transport) (k : Nat), t.flatten = [] → connRead k t = none := by
  intro t
  induction t with
  | nil => intro k _; rfl
  | cons c cs ih =>
    intro k h
    simp only [List.flatten_cons, List.append_eq_nil] at h
    unfold connRead
    rw [if_pos h.1]
    exact ih k h.2

theorem throughDelim_append (delim : Nat) (s rest : List Nat) (h : delim ∉ s) :
    throughDelim delim (s ++ delim :: rest) = s ++ [delim] := by
  induction s with
  | nil => simp [throughDelim]
  | cons c cs ih =>
    have hc : c ≠ delim := fun e => h (by simp [e])
    have hcs : delim ∉ cs := fun e => h (by simp [e])
    simp [throughDelim, hc, ih hcs]

/-- The buffered reader returns the line through the first LF, however the stream is cut into
reads and whatever follows that LF. -/
theorem ReadBytesFuel_line : ∀ (fuel : Nat) (acc : List Nat) (t : Transport)
    (s rest : List Nat), LF ∉ s → t.flatten = s ++ LF :: rest → t.flatten.length < fuel →
    (ReadBytesFuel LF fuel acc t).1 = .ok (acc ++ s ++ [LF]) := by
  intro fuel
  induction fuel with
  | zero => intro acc t s rest _ _ h; omega
  | succ fuel ih =>
    intro acc t s rest hs ht hfuel
    have hk : 1 ≤ bufioSize - acc.length % bufioSize := by
      have : acc.length % bufioSize < bufioSize := Nat.mod_lt _ (by simp [bufioSize])
      omega
    obtain ⟨d, t1, hrd, hd, _, hsplit⟩ := connRead_spec t _ hk (by simp [ht])
    unfold ReadBytesFuel
    rw [hrd]
    dsimp only
    have hd0 : 0 < d.length := List.length_pos.mpr hd
    have hlen1 : t1.flatten.length < fuel := by
      have := congrArg List.length hsplit
      simp only [List.length_append] at this
      omega
    rw [ht] at hsplit
    rcases List.append_eq_append_iff.mp hsplit with ⟨a, ha1, ha2⟩ | ⟨c, hc1, hc2⟩
    · cases a with
      | nil =>
        -- the read ends right before the LF
        have hd1 : d = s := by simpa using ha1
        have hnot : LF ∉ d := by rw [hd1]; exact hs
        rw [if_neg hnot, ih (acc ++ d) t1 [] rest (by simp) (by simpa using ha2.symm) hlen1, hd1]
        simp
      | cons x xs =>
        -- the read contains the LF
        have hx : x = LF := by
          have := ha2
          simp only [List.cons_append, List.cons.injEq] at this
          exact this.1.symm
        subst hx
        have hmem : LF ∈ d := by rw [ha1]; simp
        rw [if_pos hmem, ha1, throughDelim_append LF s xs hs]
        simp
    · -- the read ends inside the line
      have hnot : LF ∉ d := fun h => hs (by rw [hc1]; simp [h])
      have hc : LF ∉ c := fun h => hs (by rw [hc1]; simp [h])
      rw [if_neg hnot, ih (acc ++ d) t1 c rest hc hc2 hlen1, hc1]
      simp

theorem ReadBytes_line (t : Transport) (s rest : List Nat) (hs : LF ∉ s)
    (ht : t.flatten = s ++ LF :: rest) : (ReadBytes LF t).1 = .ok (s ++ [LF]) := by
  have := ReadBytesFuel_line (t.flatten.length + 1) [] t s rest hs ht (by omega)
  simpa [ReadBytes] using this

/-- The method `readValue` on a stream whose first LF comes after `s` and one more byte `c`:
the text is `s`, the byte `c` (CR in a well-formed stream) is dropped with the LF. -/
theorem readValue_line (typ : Nat) (t : Transport) (s : List Nat) (c : Nat) (rest : List Nat)
    (hs : LF ∉ s) (hc : c ≠ LF) (ht : t.flatten = s ++ c :: LF :: rest) :
    (readValue typ t).1 =
      if typ = STRING then .ok (simpleString s)
      else if typ = ERROR then .ok (errorValue s)
      else if typ = INTEGER then
        (match Atoi s with
          | .error e => .error e
          | .ok num => .ok (integerValue num))
      else .error .unknownType := by
  have hline : LF ∉ s ++ [c] := by
    simp only [List.mem_append, List.mem_singleton, not_or]
    exact ⟨hs, fun h => hc h.symm⟩
  have hrb := ReadBytes_line t (s ++ [c]) rest hline (by simp [ht])
  unfold readValue
  rcases hrd : ReadBytes LF t with ⟨o, t1⟩
  rw [hrd] at hrb
  dsimp only at hrb
  subst hrb
  dsimp only
  have hlen : ¬ ((s ++ [c] ++ [LF]).length < 2) := by simp
  have htake : (s ++ [c] ++ [LF]).take ((s ++ [c] ++ [LF]).length - 2) = s := by
    simp
  rw [if_neg hlen, htake]
  by_cases h1 : typ = STRING
  · simp [h1, simpleString]
  · by_cases h2 : typ = ERROR
    · subst h2
      simp [STRING, ERROR, errorValue]
    · by_cases h3 : typ = INTEGER
      · subst h3
        cases Atoi s <;> simp [STRING, ERROR, INTEGER, integerValue]
      · simp [h1, h2, h3]

/-- The first step of `Read`: one byte is taken from the stream, in whatever chunk it lies. -/
theorem connRead_one (t : Transport) (p : Nat) (body : List Nat) (ht : t.flatten = p :: body) :
    ∃ t1, connRead 1 t = some ([p], t1) ∧ t1.flatten = body := by
  obtain ⟨d, t1, hrd, hd, hlen, hsplit⟩ := connRead_spec t 1 (le_refl 1) (by simp [ht])
  obtain ⟨x, xs, rfl⟩ := List.exists_cons_of_ne_nil hd
  have hxs : xs = [] := by
    simp only [List.length_cons] at hlen
    exact List.length_eq_zero.mp (by omega)
  subst hxs
  rw [ht] at hsplit
  simp only [List.singleton_append, List.cons.injEq] at hsplit
  exact ⟨t1, by rw [hrd, hsplit.1], hsplit.2.symm⟩

/-! ## What `Atoi` accepts -/

theorem Atoi_minus (ds : List Nat) :
    Atoi (45 :: ds) =
      if isDigits ds = true ∧ digitsValue ds ≤ 2 ^ 63 then .ok (-(digitsValue ds : Int))
      else .error .NumError := by
  unfold Atoi isDigits
  cases ds with
  | nil => simp
  | cons d ds =>
    by_cases hall : (d :: ds).all isDigit = true
    · simp [hall]
      split_ifs <;> first | rfl | omega
    · simp [hall]

theorem Atoi_plus (ds : List Nat) :
    Atoi (43 :: ds) =
      if isDigits ds = true ∧ digitsValue ds < 2 ^ 63 then .ok (digitsValue ds : Int)
      else .error .NumError := by
  unfold Atoi isDigits
  cases ds with
  | nil => simp
  | cons d ds =>
    by_cases hall : (d :: ds).all isDigit = true
    · simp [hall]
      split_ifs <;> first | rfl | omega
    · simp [hall]

theorem Atoi_unsigned (c : Nat) (ds : List Nat) (h45 : c ≠ 45) (h43 : c ≠ 43) :
    Atoi (c :: ds) =
      if isDigits (c :: ds) = true ∧ digitsValue (c :: ds) < 2 ^ 63 then
        .ok (digitsValue (c :: ds) : Int)
      else .error .NumError := by
  unfold Atoi isDigits
  by_cases hall : (c :: ds).all isDigit = true
  · simp [hall, h45, h43]
    split_ifs <;> first | rfl | omega
  · simp [hall, h45, h43]

theorem Atoi_nil : Atoi [] = .error .NumError := by
  simp [Atoi]

theorem Atoi_error (t : List Nat) (e : GoError) (h : Atoi t = .error e) : e = .NumError := by
  have key : ∀ (P : Prop) [Decidable P] (v : Int),
      (if P then Except.ok v else Except.error GoError.NumError) = Except.error e →
      e = .NumError := by
    intro P _ v hP
    split_ifs at hP
    cases hP
    rfl
  cases t with
  | nil =>
    rw [Atoi_nil] at h
    cases h
    rfl
  | cons c ds =>
    by_cases h45 : c = 45
    · subst h45
      rw [Atoi_minus] at h
      exact key _ _ h
    · by_cases h43 : c = 43
      · subst h43
        rw [Atoi_plus] at h
        exact key _ _ h
      · rw [Atoi_unsigned c ds h45 h43] at h
        exact key _ _ h

/-- The strings accepted by `strconv.Atoi` are the signed decimal spellings. -/
theorem Atoi_ok_iff (t : List Nat) (n : Int) : Atoi t = .ok n ↔ signedSpelling t n = true := by
  cases t with
  | nil => simp [Atoi_nil, signedSpelling, decimalSpelling, isDigits]
  | cons c ds =>
    by_cases h45 : c = 45
    · subst h45
      rw [Atoi_minus]
      have hnd : isDigits (45 :: ds) = false := by simp [isDigits, isDigit]
      simp only [signedSpelling, decimalSpelling, hnd, List.head?_cons, List.tail_cons]
      by_cases hd : isDigits ds = true
      · simp [hd]
        split_ifs with hv
        · constructor
          · intro h
            injection h with h
            omega
          · intro h
            exact congrArg Except.ok (by omega)
        · constructor
          · intro h
            cases h
          · intro h
            exfalso
            omega
      · simp [hd]
    · by_cases h43 : c = 43
      · subst h43
        rw [Atoi_plus]
        have hnd : isDigits (43 :: ds) = false := by simp [isDigits, isDigit]
        simp only [signedSpelling, decimalSpelling, hnd, List.head?_cons, List.tail_cons]
        by_cases hd : isDigits ds = true
        · simp [hd]
          split_ifs with hv
          · constructor
            · intro h
              injection h with h
              omega
            · intro h
              exact congrArg Except.ok (by omega)
          · constructor
            · intro h
              cases h
            · intro h
              exfalso
              omega
        · simp [hd]
      · rw [Atoi_unsigned c ds h45 h43]
        simp only [signedSpelling, decimalSpelling, List.head?_cons, List.tail_cons]
        by_cases hd : isDigits (c :: ds) = true
        · simp [hd, h45, h43]
          split_ifs with hv
          · constructor
            · intro h
              injection h with h
              omega
            · intro h
              exact congrArg Except.ok (by omega)
          · constructor
            · intro h
              cases h
            · intro h
              exfalso
              omega
        · simp [hd, h45, h43]

/-! ## The decoder, by type byte -/

/-- The dispatch of `Read` on the first byte of the stream, in whatever chunk it lies. -/
theorem Read_dispatch (cs : Transport) (p : Nat) (body : List Nat)
    (h : cs.flatten = p :: body) :
    ∃ t1, t1.flatten = body ∧
      Read cs =
        if p = STRING then readString t1
        else if p = ERROR then readError t1
        else if p = INTEGER then readInteger t1
        else if p = BULK then readBulk t1
        else if p = ARRAY then readArray (fun t2 => readFuel cs.flatten.length t2) t1
        else (.error .unknownRESPType, t1) := by
  obtain ⟨t1, hrd, ht1⟩ := connRead_one cs p body h
  refine ⟨t1, ht1, ?_⟩
  simp only [Read, readFuel, hrd, List.headD_cons]

theorem Read_integer_line (t : List Nat) (cs : Transport) (hLF : LF ∉ t)
    (hcs : cs.flatten = [INTEGER] ++ t ++ [CR, LF]) :
    (Read cs).1 =
      match Atoi t with
      | .error e => .error e
      | .ok num => .ok (integerValue num) := by
  obtain ⟨t1, ht1, hrd⟩ := Read_dispatch cs INTEGER (t ++ [CR, LF]) (by simpa using hcs)
  rw [hrd]
  have hv := readValue_line INTEGER t1 t CR [] hLF (by decide) (by simpa using ht1)
  simpa [STRING, ERROR, INTEGER, readInteger] using hv

/-! ## Bulk strings: what is left of the stream, the errors -/

theorem ReadFullAux_rest : ∀ (t : Transport) (acc : List Nat) (need : Nat),
    need ≤ t.flatten.length →
    (ReadFullAux acc need t).2.flatten = t.flatten.drop need := by
  intro t
  induction t with
  | nil =>
    intro acc need h
    have : need = 0 := by simpa using h
    subst this
    simp [ReadFullAux]
  | cons c cs ih =>
    intro acc need h
    cases need with
    | zero => simp [ReadFullAux]
    | succ need =>
      unfold ReadFullAux
      by_cases hc : c.length ≤ need + 1
      · rw [if_pos hc, ih (acc ++ c) (need + 1 - c.length)
          (by simp only [List.flatten_cons, List.length_append] at h; omega)]
        simp [List.drop_append_eq_append_drop, List.drop_of_length_le hc]
      · rw [if_neg hc]
        have : need + 1 - c.length = 0 := by omega
        simp [List.drop_append_eq_append_drop, this]

/-- After a length line delivered by its own read, `readBulk` is `io.ReadFull` of `n + 2`
bytes followed by the slice `bulkData[:n]`. -/
theorem readBulk_header_eq (n : Nat) (hn : n + 2 < 2 ^ 63) (cs : Transport) :
    readBulk ((natDigits n ++ [CR, LF]) :: cs) =
      match ReadFull (n + 2) cs with
      | (.ok bulkData, t2) =>
        if (n : Int) < 0 ∨ (bulkData.length : Int) < (n : Int) then (.panic, t2)
        else (.ok (.mk "bulk" [] 0 (bulkData.take n) []), t2)
      | (.error e, t2) => (.error e, t2)
      | (.panic, t2) => (.panic, t2)
      | (.outOfFuel, t2) => (.outOfFuel, t2) := by
  have hn63 : n < 2 ^ 63 := by omega
  have htake : (natDigits n ++ [CR, LF]).take ((natDigits n ++ [CR, LF]).length - 2)
      = natDigits n := by
    simp
  have hwrap : wrap64 ((n : Int) + 2) = ((n + 2 : Nat) : Int) := by
    rw [wrap64_of_range _ (by omega) (by norm_num at hn ⊢; omega)]
    simp
  have h1 : ¬ ((natDigits n ++ [CR, LF]).length < 2) := by simp
  have h2 : ¬ ((n : Int) = -1) := by omega
  have h3 : ¬ (((n + 2 : Nat) : Int) < 0) := by omega
  unfold readBulk
  rw [connRead_header n hn63 cs]
  dsimp only
  rw [if_neg h1, htake, Atoi_natDigits n hn63]
  dsimp only
  rw [if_neg h2, hwrap, if_neg h3, Int.toNat_ofNat]
  rfl

theorem readBulk_rest (n : Nat) (hn : n + 2 < 2 ^ 63) (cs : Transport)
    (h : n + 2 ≤ cs.flatten.length) :
    (readBulk ((natDigits n ++ [CR, LF]) :: cs)).2.flatten = cs.flatten.drop (n + 2) := by
  have hfull := ReadFullAux_of_enough cs [] (n + 2) h
  have hrest := ReadFullAux_rest cs [] (n + 2) h
  rw [readBulk_header_eq n hn cs]
  unfold ReadFull
  rcases hrf : ReadFullAux [] (n + 2) cs with ⟨o, t2⟩
  rw [hrf] at hfull hrest
  simp only [List.nil_append] at hfull hrest
  subst hfull
  dsimp only
  split_ifs <;> exact hrest

theorem Read_bulk_chunk (t : Transport) :
    Read ([BULK] :: t) = readBulk t := by
  simp [Read, readFuel, connRead, BULK, STRING, ERROR, INTEGER]

theorem Read_bulk_chunk_joined (hdr : List Nat) (t : Transport) (h : hdr ≠ []) :
    Read ((BULK :: hdr) :: t) = readBulk (hdr :: t) := by
  have h2 : ¬ ((BULK :: hdr).length ≤ 1) := by
    have : 0 < hdr.length := List.length_pos.mpr h
    simp only [List.length_cons]
    omega
  simp only [Read, readFuel, connRead]
  rw [if_neg (by simp), if_neg h2]
  simp [BULK, STRING, ERROR, INTEGER]

/-- After a bulk string whose length line is delivered by its own read, the stream is
positioned right after the two bytes that follow the payload. -/
theorem Read_bulk_rest_of_header (b : List Nat) (x y : Nat) (rest : List Nat) (cs : Transport)
    (hlen : b.length + 2 < 2 ^ 63) (hcs : cs.flatten = b ++ [x, y] ++ rest) :
    (Read ([BULK] :: (Itoa (b.length : Int) ++ [CR, LF]) :: cs)).2.flatten = rest ∧
    (Read ((BULK :: (Itoa (b.length : Int) ++ [CR, LF])) :: cs)).2.flatten = rest := by
  have hr : (readBulk ((natDigits b.length ++ [CR, LF]) :: cs)).2.flatten = rest := by
    rw [readBulk_rest b.length hlen cs (by simp [hcs]), hcs]
    simp
  rw [Read_bulk_chunk, Read_bulk_chunk_joined _ _ (by simp), Itoa_natCast]
  exact ⟨hr, hr⟩

theorem ReadFullAux_error_kind : ∀ (t : Transport) (acc : List Nat) (need : Nat) (e : GoError),
    (ReadFullAux acc need t).1 = .error e → e = .EOF ∨ e = .ErrUnexpectedEOF := by
  intro t
  induction t with
  | nil =>
    intro acc need e h
    cases need with
    | zero => simp [ReadFullAux] at h
    | succ need =>
      simp only [ReadFullAux, Outcome.error.injEq] at h
      rw [← h]
      split_ifs
      · exact Or.inl rfl
      · exact Or.inr rfl
  | cons c cs ih =>
    intro acc need e h
    cases need with
    | zero => simp [ReadFullAux] at h
    | succ need =>
      unfold ReadFullAux at h
      split_ifs at h
      exact ih _ _ e h

/-- A length line that declares `2^63 - 2` or `2^63 - 1`: `length+2` wraps around and `make`
panics. -/
theorem readBulk_header_overflow (n : Nat) (hn : n < 2 ^ 63) (hbig : 2 ^ 63 ≤ n + 2)
    (cs : Transport) : readBulk ((natDigits n ++ [CR, LF]) :: cs) = (.panic, cs) := by
  have htake : (natDigits n ++ [CR, LF]).take ((natDigits n ++ [CR, LF]).length - 2)
      = natDigits n := by
    simp
  have h1 : ¬ ((natDigits n ++ [CR, LF]).length < 2) := by simp
  have h2 : ¬ ((n : Int) = -1) := by omega
  have h3 : wrap64 ((n : Int) + 2) < 0 := by
    unfold wrap64
    norm_num at hn hbig ⊢
    omega
  unfold readBulk
  rw [connRead_header n hn cs]
  dsimp only
  rw [if_neg h1, htake, Atoi_natDigits n hn]
  dsimp only
  rw [if_neg h2, if_pos h3]

/-- After a length line delivered by its own read, the only errors of `readBulk` are the ones of
`io.ReadFull` on a stream that ends before `n + 2` bytes. -/
theorem readBulk_error_of_header (n : Nat) (hn : n < 2 ^ 63) (cs : Transport) (e : GoError)
    (h : (readBulk ((natDigits n ++ [CR, LF]) :: cs)).1 = .error e) :
    cs.flatten.length < n + 2 ∧ (e = .EOF ∨ e = .ErrUnexpectedEOF) := by
  by_cases hbig : 2 ^ 63 ≤ n + 2
  · rw [readBulk_header_overflow n hn hbig cs] at h
    cases h
  · have hn2 : n + 2 < 2 ^ 63 := by omega
    constructor
    · by_contra hlen
      rw [readBulk_of_header n hn2 cs (by omega)] at h
      cases h
    · rw [readBulk_header_eq n hn2 cs] at h
      unfold ReadFull at h
      have hk := ReadFullAux_error_kind cs [] (n + 2)
      rcases hrf : ReadFullAux [] (n + 2) cs with ⟨o, t2⟩
      rw [hrf] at h hk
      cases o with
      | ok bulkData =>
        dsimp only at h
        split_ifs at h
      | error e2 =>
        dsimp only at h hk
        cases h
        exact hk e rfl
      | panic => cases h
      | outOfFuel => cases h

/-! ## The session: splitting the buffer at CR LF -/

theorem splitCRLFAux_line : ∀ (s cur rest : List Nat), CR ∉ s →
    splitCRLFAux cur (s ++ CR :: LF :: rest) = (cur ++ s) :: splitCRLFAux [] rest := by
  intro s
  induction s with
  | nil =>
    intro cur rest _
    simp [splitCRLFAux]
  | cons c s ih =>
    intro cur rest h
    have hc : c ≠ CR := fun e => h (by simp [e])
    have hs : CR ∉ s := fun e => h (by simp [e])
    have step : splitCRLFAux cur (c :: (s ++ CR :: LF :: rest)) =
        splitCRLFAux (cur ++ [c]) (s ++ CR :: LF :: rest) := by
      cases s with
      | nil => simp [splitCRLFAux, hc]
      | cons d s => simp [splitCRLFAux, hc]
    rw [List.cons_append, step, ih (cur ++ [c]) rest hs]
    simp

theorem containsCRLF_line (s rest : List Nat) :
    containsCRLF (s ++ CR :: LF :: rest) = true := by
  induction s with
  | nil => simp [containsCRLF]
  | cons c s ih => simp [containsCRLF, ih]

theorem CR_not_mem_natDigits (n : Nat) : CR ∉ natDigits n := by
  intro h
  have := (natDigits_spec n).2.1 CR h
  simp [isDigit, CR] at this

/-! ## The encoder is prefix-free on canonical values -/

theorem Marshal_simpleString (s : List Nat) :
    Marshal (simpleString s) = 43 :: (s ++ [13, 10]) := by
  simp [simpleString, Marshal, STRING, CR, LF]

theorem Marshal_errorValue (s : List Nat) :
    Marshal (errorValue s) = 45 :: (s ++ [13, 10]) := by
  simp [errorValue, Marshal, ERROR, CR, LF]

theorem Marshal_bulkValue (b : List Nat) :
    Marshal (bulkValue b) = 36 :: (natDigits b.length ++ 13 :: 10 :: (b ++ [13, 10])) := by
  simp [bulkValue, Marshal, BULK, CR, LF, Itoa_natCast]

theorem Marshal_nullValue : Marshal nullValue = [36, 45, 49, 13, 10] := by
  simp [nullValue, Marshal]

theorem Marshal_arrayValue (items : List Value) :
    Marshal (arrayValue items) =
      42 :: (natDigits items.length ++ 13 :: 10 :: marshalItems items) := by
  simp [arrayValue, Marshal, ARRAY, CR, LF, Itoa_natCast]

/-- Two lists that agree up to their first `x` agree before it and after it. -/
theorem append_cons_inj_of_not_mem (x : Nat) : ∀ (s1 s2 t1 t2 : List Nat),
    x ∉ s1 → x ∉ s2 → s1 ++ x :: t1 = s2 ++ x :: t2 → s1 = s2 ∧ t1 = t2 := by
  intro s1
  induction s1 with
  | nil =>
    intro s2 t1 t2 _ h2 h
    cases s2 with
    | nil => simpa using h
    | cons c s2 =>
      simp only [List.nil_append, List.cons_append, List.cons.injEq] at h
      exact absurd (by simp [h.1]) h2
  | cons c s1 ih =>
    intro s2 t1 t2 h1 h2 h
    cases s2 with
    | nil =>
      simp only [List.nil_append, List.cons_append, List.cons.injEq] at h
      exact absurd (by simp [h.1]) h1
    | cons d s2 =>
      simp only [List.cons_append, List.cons.injEq] at h
      obtain ⟨e1, e2⟩ := ih s2 t1 t2 (fun m => h1 (by simp [m])) (fun m => h2 (by simp [m])) h.2
      exact ⟨by rw [h.1, e1], e2⟩

theorem natDigits_injective (n m : Nat) (h : natDigits n = natDigits m) : n = m := by
  have hn := (natDigits_spec n).2.2.1
  have hm := (natDigits_spec m).2.2.1
  rw [h] at hn
  omega

theorem natDigits_head_ne_minus (n : Nat) (rest t : List Nat) :
    natDigits n ++ rest ≠ 45 :: t := by
  obtain ⟨hne, hdig, _, _⟩ := natDigits_spec n
  obtain ⟨d, ds, hd⟩ := List.exists_cons_of_ne_nil hne
  intro h
  rw [hd] at h
  simp only [List.cons_append, List.cons.injEq] at h
  have := hdig d (by rw [hd]; simp)
  rw [h.1] at this
  simp [isDigit] at this

/-- The header line `digits CR LF`: equal streams have equal counts and equal remainders. -/
theorem header_inj (n m : Nat) (t1 t2 : List Nat)
    (h : natDigits n ++ 13 :: 10 :: t1 = natDigits m ++ 13 :: 10 :: t2) : n = m ∧ t1 = t2 := by
  have h13 : ∀ k, (13 : Nat) ∉ natDigits k := fun k => CR_not_mem_natDigits k
  obtain ⟨e1, e2⟩ := append_cons_inj_of_not_mem 13 _ _ _ _ (h13 n) (h13 m) h
  exact ⟨natDigits_injective n m e1, by simpa using e2⟩

theorem marshalItems_prefix_free : ∀ (xs ys : List Value) (r1 r2 : List Nat),
    (∀ v ∈ xs, ∀ b, Canonical b → ∀ r1 r2, Marshal v ++ r1 = Marshal b ++ r2 → v = b ∧ r1 = r2) →
    (∀ b ∈ ys, Canonical b) → xs.length = ys.length →
    marshalItems xs ++ r1 = marshalItems ys ++ r2 → xs = ys ∧ r1 = r2 := by
  intro xs
  induction xs with
  | nil =>
    intro ys r1 r2 _ _ hlen h
    have : ys = [] := List.length_eq_zero.mp hlen.symm
    subst this
    exact ⟨rfl, by simpa [marshalItems] using h⟩
  | cons v vs ih =>
    intro ys r1 r2 hx hy hlen h
    cases ys with
    | nil => simp at hlen
    | cons u us =>
      simp only [marshalItems, List.append_assoc] at h
      obtain ⟨e1, e2⟩ := hx v (by simp) u (hy u (by simp)) _ _ h
      obtain ⟨e3, e4⟩ := ih us r1 r2 (fun w hw => hx w (by simp [hw]))
        (fun w hw => hy w (by simp [hw])) (by simpa using hlen) e2
      exact ⟨by rw [e1, e3], e4⟩

/-- No canonical encoding is a proper beginning of another: a stream starts with at most one
canonical encoding. -/
theorem Marshal_prefix_free : ∀ a, Canonical a → ∀ b, Canonical b → ∀ r1 r2 : List Nat,
    Marshal a ++ r1 = Marshal b ++ r2 → a = b ∧ r1 = r2 := by
  intro a ha
  induction ha with
  | string s hCR hLF =>
    intro b hb r1 r2 h
    cases hb with
    | string s2 hCR2 hLF2 =>
      simp only [Marshal_simpleString, List.cons_append, List.append_assoc, List.cons.injEq,
        true_and] at h
      obtain ⟨e1, e2⟩ := append_cons_inj_of_not_mem 13 _ _ _ _ hCR hCR2 h
      exact ⟨by rw [e1], by simpa using e2⟩
    | error s2 _ _ => simp [Marshal_simpleString, Marshal_errorValue] at h
    | bulk b2 => simp [Marshal_simpleString, Marshal_bulkValue] at h
    | null => simp [Marshal_simpleString, Marshal_nullValue] at h
    | array items2 _ => simp [Marshal_simpleString, Marshal_arrayValue] at h
  | error s hCR hLF =>
    intro b hb r1 r2 h
    cases hb with
    | string s2 _ _ => simp [Marshal_simpleString, Marshal_errorValue] at h
    | error s2 hCR2 hLF2 =>
      simp only [Marshal_errorValue, List.cons_append, List.append_assoc, List.cons.injEq,
        true_and] at h
      obtain ⟨e1, e2⟩ := append_cons_inj_of_not_mem 13 _ _ _ _ hCR hCR2 h
      exact ⟨by rw [e1], by simpa using e2⟩
    | bulk b2 => simp [Marshal_errorValue, Marshal_bulkValue] at h
    | null => simp [Marshal_errorValue, Marshal_nullValue] at h
    | array items2 _ => simp [Marshal_errorValue, Marshal_arrayValue] at h
  | bulk b1 =>
    intro b hb r1 r2 h
    cases hb with
    | string s2 _ _ => simp [Marshal_simpleString, Marshal_bulkValue] at h
    | error s2 _ _ => simp [Marshal_errorValue, Marshal_bulkValue] at h
    | bulk b2 =>
      simp only [Marshal_bulkValue, List.cons_append, List.append_assoc, List.cons.injEq,
        true_and] at h
      obtain ⟨e1, e2⟩ := header_inj _ _ _ _ h
      obtain ⟨e3, e4⟩ := List.append_inj e2 e1
      exact ⟨by rw [e3], by simpa using e4⟩
    | null =>
      simp only [Marshal_bulkValue, Marshal_nullValue, List.cons_append, List.append_assoc,
        List.cons.injEq, true_and] at h
      exact absurd h (natDigits_head_ne_minus _ _ _)
    | array items2 _ => simp [Marshal_bulkValue, Marshal_arrayValue] at h
  | null =>
    intro b hb r1 r2 h
    cases hb with
    | string s2 _ _ => simp [Marshal_simpleString, Marshal_nullValue] at h
    | error s2 _ _ => simp [Marshal_errorValue, Marshal_nullValue] at h
    | bulk b2 =>
      simp only [Marshal_bulkValue, Marshal_nullValue, List.cons_append, List.append_assoc,
        List.cons.injEq, true_and] at h
      exact absurd h.symm (natDigits_head_ne_minus _ _ _)
    | null => exact ⟨rfl, by simpa [Marshal_nullValue] using h⟩
    | array items2 _ => simp [Marshal_nullValue, Marshal_arrayValue] at h
  | array items hitems ih =>
    intro b hb r1 r2 h
    cases hb with
    | string s2 _ _ => simp [Marshal_simpleString, Marshal_arrayValue] at h
    | error s2 _ _ => simp [Marshal_errorValue, Marshal_arrayValue] at h
    | bulk b2 => simp [Marshal_bulkValue, Marshal_arrayValue] at h
    | null => simp [Marshal_nullValue, Marshal_arrayValue] at h
    | array items2 hitems2 =>
      simp only [Marshal_arrayValue, List.cons_append, List.append_assoc, List.cons.injEq,
        true_and] at h
      obtain ⟨e1, e2⟩ := header_inj _ _ _ _ h
      obtain ⟨e3, e4⟩ := marshalItems_prefix_free items items2 r1 r2 ih hitems2 e1 e2
      exact ⟨by rw [e3], e4⟩

/-! ## The fuel of the model suffices -/

theorem connRead_some : ∀ (t : Transport) (k : Nat) (d : List Nat) (t1 : Transport),
    connRead k t = some (d, t1) → t.flatten = d ++ t1.flatten := by
  intro t
  induction t with
  | nil => intro k d t1 h; simp [connRead] at h
  | cons c cs ih =>
    intro k d t1 h
    unfold connRead at h
    split_ifs at h with h1 h2
    · subst h1
      simpa using ih k d t1 h
    · simp only [Option.some.injEq, Prod.mk.injEq] at h
      obtain ⟨rfl, rfl⟩ := h
      simp
    · simp only [Option.some.injEq, Prod.mk.injEq] at h
      obtain ⟨rfl, rfl⟩ := h
      simp [← List.append_assoc]

theorem connRead_length_le (t : Transport) (k : Nat) (d : List Nat) (t1 : Transport)
    (h : connRead k t = some (d, t1)) : t1.flatten.length ≤ t.flatten.length := by
  rw [connRead_some t k d t1 h]
  simp

theorem ReadBytesFuel_settled (delim : Nat) : ∀ (fuel : Nat) (acc : List Nat) (t : Transport),
    t.flatten.length < fuel → Settled (ReadBytesFuel delim fuel acc t) t := by
  intro fuel
  induction fuel with
  | zero => intro acc t h; omega
  | succ fuel ih =>
    intro acc t hfuel
    unfold ReadBytesFuel
    by_cases ht : t.flatten = []
    · rw [connRead_eof t _ ht]
      exact ⟨by simp, by simp⟩
    · have hk : 1 ≤ bufioSize - acc.length % bufioSize := by
        have : acc.length % bufioSize < bufioSize := Nat.mod_lt _ (by simp [bufioSize])
        omega
      obtain ⟨d, t1, hrd, hd, _, hsplit⟩ := connRead_spec t _ hk ht
      have hd0 : 0 < d.length := List.length_pos.mpr hd
      have hlen : t1.flatten.length < t.flatten.length := by
        rw [hsplit, List.length_append]
        omega
      rw [hrd]
      dsimp only
      split_ifs
      · exact ⟨by simp, by dsimp only; omega⟩
      · obtain ⟨h1, h2⟩ := ih (acc ++ d) t1 (by omega)
        exact ⟨h1, by omega⟩

theorem readValue_settled (typ : Nat) (t : Transport) : Settled (readValue typ t) t := by
  obtain ⟨h1, h2⟩ := ReadBytesFuel_settled LF (t.flatten.length + 1) [] t (by omega)
  unfold readValue ReadBytes
  rcases hrb : ReadBytesFuel LF (t.flatten.length + 1) [] t with ⟨o, t1⟩
  rw [hrb] at h1 h2
  dsimp only at h1 h2
  cases o with
  | ok valueBytes =>
    dsimp only
    split_ifs
    · exact ⟨by simp, h2⟩
    · exact ⟨by simp, h2⟩
    · exact ⟨by simp, h2⟩
    · cases Atoi (List.take (valueBytes.length - 2) valueBytes) <;> exact ⟨by simp, h2⟩
    · exact ⟨by simp, h2⟩
  | error e => exact ⟨by simp, h2⟩
  | panic => exact ⟨by simp, h2⟩
  | outOfFuel => exact absurd rfl h1

theorem ReadFullAux_settled : ∀ (t : Transport) (acc : List Nat) (need : Nat),
    Settled (ReadFullAux acc need t) t := by
  intro t
  induction t with
  | nil =>
    intro acc need
    cases need <;> exact ⟨by simp [ReadFullAux], by simp [ReadFullAux]⟩
  | cons c cs ih =>
    intro acc need
    cases need with
    | zero => exact ⟨by simp [ReadFullAux], by simp [ReadFullAux]⟩
    | succ need =>
      unfold ReadFullAux
      split_ifs
      · obtain ⟨h1, h2⟩ := ih (acc ++ c) (need + 1 - c.length)
        exact ⟨h1, by simp only [List.flatten_cons, List.length_append]; omega⟩
      · exact ⟨by simp, by simp⟩

theorem readBulk_settled (t : Transport) : Settled (readBulk t) t := by
  unfold readBulk
  rcases hrd : connRead 32 t with _ | ⟨lengthBuf, t1⟩
  · exact ⟨by simp, by simp⟩
  · have hle := connRead_length_le t 32 lengthBuf t1 hrd
    dsimp only
    split_ifs
    · exact ⟨by simp, hle⟩
    · cases Atoi (List.take (lengthBuf.length - 2) lengthBuf) with
      | error e => exact ⟨by simp, hle⟩
      | ok length =>
        dsimp only
        split_ifs
        · exact ⟨by simp, hle⟩
        · exact ⟨by simp, hle⟩
        · obtain ⟨h1, h2⟩ := ReadFullAux_settled t1 [] (wrap64 (length + 2)).toNat
          unfold ReadFull
          rcases hrf : ReadFullAux [] (wrap64 (length + 2)).toNat t1 with ⟨o, t2⟩
          rw [hrf] at h1 h2
          dsimp only at h1 h2
          cases o with
          | ok bulkData =>
            dsimp only
            split_ifs <;> exact ⟨by simp, by dsimp only; omega⟩
          | error e => exact ⟨by simp, by dsimp only; omega⟩
          | panic => exact ⟨by simp, by dsimp only; omega⟩
          | outOfFuel => exact absurd rfl h1

theorem readItems_settled (rd : Transport → Outcome Value × Transport) (bound : Nat)
    (hrd : ∀ t, t.flatten.length ≤ bound → Settled (rd t) t) :
    ∀ (count : Nat) (t : Transport), t.flatten.length ≤ bound →
      Settled (readItems rd count t) t := by
  intro count
  induction count with
  | zero => intro t _; exact ⟨by simp [readItems], by simp [readItems]⟩
  | succ count ih =>
    intro t ht
    obtain ⟨h1, h2⟩ := hrd t ht
    unfold readItems
    rcases hr : rd t with ⟨o, t1⟩
    rw [hr] at h1 h2
    dsimp only at h1 h2
    cases o with
    | ok value =>
      dsimp only
      obtain ⟨h3, h4⟩ := ih t1 (by omega)
      rcases hri : readItems rd count t1 with ⟨o2, t2⟩
      rw [hri] at h3 h4
      dsimp only at h3 h4
      cases o2 with
      | ok rest => exact ⟨by simp, by dsimp only; omega⟩
      | error e => exact ⟨by simp, by dsimp only; omega⟩
      | panic => exact ⟨by simp, by dsimp only; omega⟩
      | outOfFuel => exact absurd rfl h3
    | error e => exact ⟨by simp, h2⟩
    | panic => exact ⟨by simp, h2⟩
    | outOfFuel => exact absurd rfl h1

theorem readArray_settled (rd : Transport → Outcome Value × Transport) (t : Transport)
    (hrd : ∀ t1, t1.flatten.length ≤ t.flatten.length → Settled (rd t1) t1) :
    Settled (readArray rd t) t := by
  unfold readArray
  rcases hcr : connRead 32 t with _ | ⟨lengthBuf, t1⟩
  · exact ⟨by simp, by simp⟩
  · have hle := connRead_length_le t 32 lengthBuf t1 hcr
    dsimp only
    split_ifs
    · exact ⟨by simp, hle⟩
    · cases Atoi (List.take (lengthBuf.length - 2) lengthBuf) with
      | error e => exact ⟨by simp, hle⟩
      | ok length =>
        dsimp only
        split_ifs
        · exact ⟨by simp, hle⟩
        · obtain ⟨h1, h2⟩ := readItems_settled rd t.flatten.length hrd length.toNat t1 hle
          rcases hri : readItems rd length.toNat t1 with ⟨o, t2⟩
          rw [hri] at h1 h2
          dsimp only at h1 h2
          cases o with
          | ok array => exact ⟨by simp, by dsimp only; omega⟩
          | error e => exact ⟨by simp, by dsimp only; omega⟩
          | panic => exact ⟨by simp, by dsimp only; omega⟩
          | outOfFuel => exact absurd rfl h1

theorem readFuel_settled : ∀ (fuel : Nat) (t : Transport), t.flatten.length < fuel →
    Settled (readFuel fuel t) t := by
  intro fuel
  induction fuel with
  | zero => intro t h; omega
  | succ fuel ih =>
    intro t hfuel
    unfold readFuel
    by_cases ht : t.flatten = []
    · rw [connRead_eof t _ ht]
      exact ⟨by simp, by simp⟩
    · obtain ⟨buf, t1, hrd, hd, _, hsplit⟩ := connRead_spec t 1 (le_refl 1) ht
      have hd0 : 0 < buf.length := List.length_pos.mpr hd
      have hlen : t1.flatten.length < t.flatten.length := by
        rw [hsplit, List.length_append]
        omega
      have weaken : ∀ {r : Outcome Value × Transport}, Settled r t1 → Settled r t :=
        fun h => ⟨h.1, by have := h.2; omega⟩
      rw [hrd]
      dsimp only
      split_ifs
      · exact weaken (readValue_settled STRING t1)
      · exact weaken (readValue_settled ERROR t1)
      · exact weaken (readValue_settled INTEGER t1)
      · exact weaken (readBulk_settled t1)
      · exact weaken (readArray_settled _ t1 (fun t2 h2 => ih t2 (by omega)))
      · exact ⟨by simp, by dsimp only; omega⟩

/-- The decoder never uses up the fuel of the model: on every stream, in every chunking, `Read`
returns a value, returns an error or panics, and it takes bytes from the front of
the stream only. -/
theorem Read_settled (t : Transport) : Settled (Read t) t :=
  readFuel_settled (t.flatten.length + 1) t (by omega)

/-! ## The claims -/

/-- C1: the round trip fails.  An Integer value marshals to no byte at all, so `Read` meets
the end of the stream; a bulk string whose encoding arrives in one read is refused,
because the 32-byte read of the length line also takes the payload. -/
theorem roundtrip_fails :
    Marshal (integerValue 5) = [] ∧
    Read [Marshal (integerValue 5)] = (.error .EOF, []) ∧
    Marshal (bulkValue (ascii "hi")) = ascii "$2\r\nhi\r\n" ∧
    Read [Marshal (bulkValue (ascii "hi"))] = (.error .NumError, []) ∧
    Marshal (arrayValue [nullValue]) = ascii "*1\r\n$-1\r\n" ∧
    Read [Marshal (arrayValue [nullValue])] = (.error .NumError, []) := by
  refine ⟨?_, ?_, ?_, ?_, ?_, ?_⟩ <;> rfl

/-- C2: splitting changes the result.  The encoding `*0\r\n` of the empty array decodes in
one read, and panics (slice bound `n-2 = -1`) when split after two bytes; the
encoding of the bulk string `hi` is refused in one read and decodes when split
after its length line. -/
theorem split_read_changes_result :
    Marshal (arrayValue []) = ascii "*0\r\n" ∧
    (Read [ascii "*0\r\n"]).1 = .ok (arrayValue []) ∧
    (Read [(ascii "*0\r\n").take 2, (ascii "*0\r\n").drop 2]).1 = .panic ∧
    Marshal (bulkValue (ascii "hi")) = ascii "$2\r\nhi\r\n" ∧
    (Read [ascii "$2\r\nhi\r\n"]).1 = .error .NumError ∧
    (Read [(ascii "$2\r\nhi\r\n").take 4, (ascii "$2\r\nhi\r\n").drop 4]).1 =
      .ok (bulkValue (ascii "hi")) := by
  refine ⟨?_, ?_, ?_, ?_, ?_, ?_⟩ <;> rfl

/-- C3: the decoder over-reads.  With `+OK\r\n` followed by `+A\r\n` in one chunk, the first
`Read` returns `OK` and leaves nothing: the buffered reader of `readValue` took the
second message too, and the second `Read` reports `io.EOF`. -/
theorem read_overreads :
    Marshal (simpleString (ascii "OK")) ++ Marshal (simpleString (ascii "A")) =
      ascii "+OK\r\n+A\r\n" ∧
    Read [ascii "+OK\r\n+A\r\n"] = (.ok (simpleString (ascii "OK")), []) ∧
    (Read (Read [ascii "+OK\r\n+A\r\n"]).2).1 = .error .EOF := by
  refine ⟨?_, ?_, ?_⟩ <;> rfl

/-- C4: `Marshal` of the null bulk string is exactly the five bytes `$-1\r\n`; `Marshal` of a
bulk string with payload `b` (any bytes) is `'$'`, the decimal rendering of `len(b)`,
CRLF, the bytes of `b` unchanged, CRLF; the null and the empty bulk string encode
differently. -/
theorem marshal_bulk_wire_format :
    (∀ (s : List Nat) (n : Int) (b : List Nat) (a : List Value),
      Marshal (.mk "null" s n b a) = ascii "$-1\r\n") ∧
    (∀ (s : List Nat) (n : Int) (b : List Nat) (a : List Value),
      Marshal (.mk "bulk" s n b a) =
        [BULK] ++ Itoa (b.length : Int) ++ [CR, LF] ++ b ++ [CR, LF]) ∧
    Marshal nullValue ≠ Marshal (bulkValue []) := by
  refine ⟨?_, ?_, by decide⟩
  · intro s n b a
    simp [Marshal]
    decide
  · intro s n b a
    simp [Marshal]

/-- C5: `Marshal` of the array holding `items` is `'*'`, the decimal rendering of
`len(items)`, CRLF, then the concatenation of `Marshal item` for each item in list
order. -/
theorem marshal_array_wire_format (s : List Nat) (n : Int) (b : List Nat)
    (items : List Value) :
    Marshal (.mk "array" s n b items) =
      [ARRAY] ++ Itoa (items.length : Int) ++ [CR, LF] ++ (items.map Marshal).flatten := by
  simp [Marshal, marshalItems_eq_flatten]

/-- C6: `Marshal` has no case for `typ = "integer"`: an Integer value is encoded as the empty
byte sequence and not as `':'`, the decimal rendering, CRLF. -/
theorem marshal_integer_is_empty (n : Int) :
    Marshal (integerValue n) = [] ∧
    Marshal (integerValue n) ≠ [INTEGER] ++ Itoa n ++ [CR, LF] := by
  have h : Marshal (integerValue n) = [] := by simp [Marshal, integerValue]
  exact ⟨h, by simp [h]⟩

/-- C7: when the length line of a bulk string is delivered by its own read (the `'$'` before it
in the same chunk or in one of its own) and the payload `b` followed by CRLF comes
next, in any chunking, `Read` returns the bulk string whose payload is exactly `b`,
whatever bytes `b` contains.  The bound on `len(b)` is the one of the 64-bit `int`
in `length+2`. -/
theorem bulk_payload_binary_safe (b : List Nat) (rest : List Nat) (cs : Transport)
    (hlen : b.length + 2 < 2 ^ 63) (hcs : cs.flatten = b ++ [CR, LF] ++ rest) :
    (Read ([BULK] :: (Itoa (b.length : Int) ++ [CR, LF]) :: cs)).1 = .ok (bulkValue b) ∧
    (Read ((BULK :: (Itoa (b.length : Int) ++ [CR, LF])) :: cs)).1 = .ok (bulkValue b) :=
  Read_bulk_of_header b CR LF rest cs hlen hcs

/-- C7, at the payload `a\r\nb` delivered in two reads that cut its CRLF. -/
theorem bulk_payload_binary_safe_witness :
    (ascii "a\r\nb").length + 2 < 2 ^ 63 ∧
    [ascii "a\r", ascii "\nb\r\n"].flatten = ascii "a\r\nb" ++ [CR, LF] ++ [] ∧
    (Read ([BULK] :: (Itoa ((ascii "a\r\nb").length : Int) ++ [CR, LF]) ::
      [ascii "a\r", ascii "\nb\r\n"])).1 = .ok (bulkValue (ascii "a\r\nb")) ∧
    (Read ((BULK :: (Itoa ((ascii "a\r\nb").length : Int) ++ [CR, LF])) ::
      [ascii "a\r", ascii "\nb\r\n"])).1 = .ok (bulkValue (ascii "a\r\nb")) :=
  ⟨by decide, by decide,
    bulk_payload_binary_safe (ascii "a\r\nb") [] [ascii "a\r", ascii "\nb\r\n"]
      (by decide) (by decide)⟩

/-- C8: a lone LF ends the line and the byte before it is dropped: on `+ab\ncd\r\n` the text
returned is `a`, not `ab\ncd`; on `+\n` the slice `valueBytes[:len-2]` panics. -/
theorem lone_lf_terminates_line :
    (Read [ascii "+ab\ncd\r\n"]).1 = .ok (simpleString (ascii "a")) ∧
    (Read [ascii "-ab\ncd\r\n"]).1 = .ok (errorValue (ascii "a")) ∧
    (Read [ascii "+\n"]).1 = .panic := by
  refine ⟨?_, ?_, ?_⟩ <;> rfl

/-- C9, as stated, fails: `Read` returns the Integer 5 for the text `+5`, which is not a
base-10 spelling with an optional leading `'-'`. -/
theorem integer_accepts_plus_sign :
    CR ∉ ascii "+5" ∧ LF ∉ ascii "+5" ∧
    (Read [[INTEGER] ++ ascii "+5" ++ [CR, LF]]).1 = .ok (integerValue 5) ∧
    decimalSpelling (ascii "+5") 5 = false :=
  ⟨by decide, by decide, by rfl, by decide⟩

/-- C9, amended: for every text `t` without LF, `Read` on the stream `':' t CRLF`, in any
chunking, returns the Integer value `n` exactly when `t` is one or more decimal
digits after an optional `'-'` or `'+'` and spells the 64-bit integer `n`, and
returns an error for every other `t`. -/
theorem integer_decoding_signed (t : List Nat) (cs : Transport) (hLF : LF ∉ t)
    (hcs : cs.flatten = [INTEGER] ++ t ++ [CR, LF]) :
    (∀ n : Int, (Read cs).1 = .ok (integerValue n) ↔ signedSpelling t n = true) ∧
    ((∀ n : Int, signedSpelling t n = false) → (Read cs).1 = .error .NumError) := by
  rw [Read_integer_line t cs hLF hcs]
  cases hA : Atoi t with
  | error e =>
    have he := Atoi_error t e hA
    subst he
    refine ⟨fun n => ⟨fun h => ?_, fun h => ?_⟩, fun _ => rfl⟩
    · cases h
    · rw [← Atoi_ok_iff, hA] at h
      cases h
  | ok m =>
    have hm : signedSpelling t m = true := (Atoi_ok_iff t m).mp hA
    refine ⟨fun n => ⟨fun h => ?_, fun h => ?_⟩, fun h => ?_⟩
    · have hmn : m = n := by
        simpa [integerValue] using h
      rw [← hmn]
      exact hm
    · rw [← Atoi_ok_iff, hA] at h
      injection h with h
      rw [h]
    · rw [h m] at hm
      cases hm

/-- C9, amended, at the text `-42` delivered in two reads. -/
theorem integer_decoding_signed_witness :
    LF ∉ ascii "-42" ∧
    [ascii ":-4", ascii "2\r\n"].flatten = [INTEGER] ++ ascii "-42" ++ [CR, LF] ∧
    (Read [ascii ":-4", ascii "2\r\n"]).1 = .ok (integerValue (-42)) :=
  ⟨by decide, by decide,
    ((integer_decoding_signed (ascii "-42") [ascii ":-4", ascii "2\r\n"]
      (by decide) (by decide)).1 (-42)).mpr (by decide)⟩

/-- C10, as stated, fails: the payload `hi` followed by the two bytes `XY` instead of CRLF is
returned as a bulk string, without error. -/
theorem bulk_trailer_counterexample :
    ascii "XY" ≠ [CR, LF] ∧
    (Read [ascii "$2\r\n", ascii "hi" ++ ascii "XY"]).1 = .ok (bulkValue (ascii "hi")) :=
  ⟨by decide, by rfl⟩

/-- C10, amended: for every byte string `b` with `len(b) + 2` up to the allocation ceiling and
every two bytes `x`, `y` (CR LF or not), when the transport delivers `'$'` (in a
chunk of its own or in front of the length line), then the line `decimal(len(b))`
CRLF as its own read, then `b` followed by `x`, `y`, in any chunking, `Read` returns
without error the bulk string whose payload is `b` and leaves the stream right
after `y`: the two bytes after the payload are consumed and are not compared with
CR LF. -/
theorem bulk_trailer_not_checked (b : List Nat) (x y : Nat) (rest : List Nat)
    (cs : Transport) (hlen : b.length + 2 ≤ maxAlloc) (hcs : cs.flatten = b ++ [x, y] ++ rest) :
    (Read ([BULK] :: (Itoa (b.length : Int) ++ [CR, LF]) :: cs)).1 = .ok (bulkValue b) ∧
    (Read ([BULK] :: (Itoa (b.length : Int) ++ [CR, LF]) :: cs)).2.flatten = rest ∧
    (Read ((BULK :: (Itoa (b.length : Int) ++ [CR, LF])) :: cs)).1 = .ok (bulkValue b) ∧
    (Read ((BULK :: (Itoa (b.length : Int) ++ [CR, LF])) :: cs)).2.flatten = rest := by
  have h63 : b.length + 2 < 2 ^ 63 := by
    have : maxAlloc < 2 ^ 63 := by decide
    omega
  have hv := Read_bulk_of_header b x y rest cs h63 hcs
  have hr := Read_bulk_rest_of_header b x y rest cs h63 hcs
  exact ⟨hv.1, hr.1, hv.2, hr.2⟩

/-- C10, amended, at the payload `hi` followed by `XY` and by one more byte. -/
theorem bulk_trailer_not_checked_witness :
    (ascii "hi").length + 2 ≤ maxAlloc ∧
    [ascii "h", ascii "iXY!"].flatten = ascii "hi" ++ [88, 89] ++ [33] ∧
    (Read ([BULK] :: (Itoa ((ascii "hi").length : Int) ++ [CR, LF]) ::
      [ascii "h", ascii "iXY!"])).1 = .ok (bulkValue (ascii "hi")) ∧
    (Read ([BULK] :: (Itoa ((ascii "hi").length : Int) ++ [CR, LF]) ::
      [ascii "h", ascii "iXY!"])).2.flatten = [33] ∧
    (Read ((BULK :: (Itoa ((ascii "hi").length : Int) ++ [CR, LF])) ::
      [ascii "h", ascii "iXY!"])).1 = .ok (bulkValue (ascii "hi")) ∧
    (Read ((BULK :: (Itoa ((ascii "hi").length : Int) ++ [CR, LF])) ::
      [ascii "h", ascii "iXY!"])).2.flatten = [33] :=
  ⟨by decide, by decide,
    bulk_trailer_not_checked (ascii "hi") 88 89 [33] [ascii "h", ascii "iXY!"]
      (by decide) (by decide)⟩

/-- C11: on `*-1\r\n` the decoder does not return a null Array: `readArray` has no case for
the count `-1` (as `readBulk` has for the length `-1`) and `make([]Value, -1)`
panics; `*0\r\n` decodes to the empty Array. -/
theorem null_array_panics :
    Read [ascii "*-1\r\n"] = (.panic, []) ∧
    Read [ascii "*", ascii "-1\r\n"] = (.panic, []) ∧
    Read [ascii "*0\r\n"] = (.ok (arrayValue []), []) ∧
    Read [ascii "$-1\r\n"] = (.ok nullValue, []) := by
  refine ⟨?_, ?_, ?_, ?_⟩ <;> rfl

/-- C12: a bulk header that declares the length `2^63 - 1` (or `2^63 - 2`) makes `length+2`
wrap around to a negative size, and `make([]byte, length+2)` panics: the truncated
stream is not answered by an error. -/
theorem bulk_truncation_overflow_panics :
    Atoi (ascii "9223372036854775807") = .ok (2 ^ 63 - 1) ∧
    wrap64 ((2 ^ 63 - 1) + 2) < 0 ∧
    Read [ascii "$", ascii "9223372036854775807\r\n", ascii "abc"] = (.panic, [ascii "abc"]) ∧
    Read [ascii "$", ascii "9223372036854775806\r\n"] = (.panic, []) := by
  refine ⟨?_, ?_, ?_, ?_⟩
  · rfl
  · decide
  · rfl
  · rfl

/-- C13, as stated, fails: a bulk string of declared length 5 is allocated, read and returned,
whatever maximum below 5 is configured; afterwards the payload bytes have been
taken from the stream. -/
theorem bulk_over_limit_is_read :
    Read [ascii "$", ascii "5\r\n", ascii "hello\r\n"] =
      (.ok (bulkValue (ascii "hello")), []) ∧
    Read [ascii "$", ascii "5\r\n", ascii "hello\r\n", ascii "+OK\r\n"] =
      (.ok (bulkValue (ascii "hello")), [ascii "+OK\r\n"]) := by
  refine ⟨?_, ?_⟩ <;> rfl

/-- C13, amended: no limit error exists.  After a bulk header that declares a length `n`
within `int` (the `'$'` in a chunk of its own or in front of the length line, the
length line delivered as its own read), `Read` returns an error only when the
stream ends before `n + 2` further bytes, and the error is then `io.EOF` or
`io.ErrUnexpectedEOF`: no declared length is refused with an error for its size. -/
theorem bulk_error_only_at_stream_end (n : Nat) (cs t : Transport) (e : GoError)
    (hn : n < 2 ^ 63)
    (ht : t = [BULK] :: (Itoa (n : Int) ++ [CR, LF]) :: cs ∨
      t = (BULK :: (Itoa (n : Int) ++ [CR, LF])) :: cs)
    (h : (Read t).1 = .error e) :
    cs.flatten.length < n + 2 ∧ (e = .EOF ∨ e = .ErrUnexpectedEOF) := by
  have hb : (readBulk ((natDigits n ++ [CR, LF]) :: cs)).1 = .error e := by
    rcases ht with rfl | rfl
    · rw [Read_bulk_chunk, Itoa_natCast] at h
      exact h
    · rw [Read_bulk_chunk_joined _ _ (by simp), Itoa_natCast] at h
      exact h
  exact readBulk_error_of_header n hn cs e hb

/-- C13, amended, at the declared length 5 followed by the two bytes `ab` only. -/
theorem bulk_error_only_at_stream_end_witness :
    5 < 2 ^ 63 ∧
    ([BULK] :: (Itoa ((5 : Nat) : Int) ++ [CR, LF]) :: [ascii "ab"] =
        [BULK] :: (Itoa ((5 : Nat) : Int) ++ [CR, LF]) :: [ascii "ab"] ∨
      [BULK] :: (Itoa ((5 : Nat) : Int) ++ [CR, LF]) :: [ascii "ab"] =
        (BULK :: (Itoa ((5 : Nat) : Int) ++ [CR, LF])) :: [ascii "ab"]) ∧
    (Read ([BULK] :: (Itoa ((5 : Nat) : Int) ++ [CR, LF]) :: [ascii "ab"])).1 =
      .error .ErrUnexpectedEOF ∧
    [ascii "ab"].flatten.length < 5 + 2 ∧
    (GoError.ErrUnexpectedEOF = .EOF ∨ GoError.ErrUnexpectedEOF = .ErrUnexpectedEOF) :=
  ⟨by decide, Or.inl rfl, by rfl,
    bulk_error_only_at_stream_end 5 [ascii "ab"] _ .ErrUnexpectedEOF (by decide) (Or.inl rfl)
      (by rfl)⟩

/-- C14: on the buffer `*1\r\n$4\r\nPING\r\n`, the encoding of the request array with the single
bulk string `PING`, `processCommand` writes exactly `+PONG\r\n`, the encoding of the
simple string `PONG`, and empties the buffer. -/
theorem ping_is_answered_with_pong (w : List Nat) :
    Marshal (arrayValue [bulkValue (ascii "PING")]) = ascii "*1\r\n$4\r\nPING\r\n" ∧
    Marshal (simpleString (ascii "PONG")) = ascii "+PONG\r\n" ∧
    processCommand { buffer := Marshal (arrayValue [bulkValue (ascii "PING")]), written := w } =
      { buffer := [], written := w ++ Marshal (simpleString (ascii "PONG")) } := by
  refine ⟨?_, ?_, ?_⟩ <;> rfl

/-- C15: for every command name `c` without CR other than `PING`, on the buffer that holds the
encoding of the request array with the single bulk string `c`, `processCommand`
writes one reply that starts with `'-'` and ends with CRLF and empties the buffer;
the `PING` request that follows is answered with `+PONG\r\n`. -/
theorem unknown_command_error_reply (c w : List Nat) (hc : c ≠ ascii "PING") (hCR : CR ∉ c) :
    processCommand { buffer := Marshal (arrayValue [bulkValue c]), written := w } =
      { buffer := [], written := w ++ ascii "-ERR unknown command\r\n" } ∧
    (ascii "-ERR unknown command\r\n").head? = some ERROR ∧
    (ascii "-ERR unknown command\r\n").drop ((ascii "-ERR unknown command\r\n").length - 2) =
      [CR, LF] ∧
    processCommand
      { buffer := (processCommand
            { buffer := Marshal (arrayValue [bulkValue c]), written := w }).buffer ++
          Marshal (arrayValue [bulkValue (ascii "PING")]),
        written := (processCommand
            { buffer := Marshal (arrayValue [bulkValue c]), written := w }).written } =
      { buffer := [],
        written := w ++ ascii "-ERR unknown command\r\n" ++ ascii "+PONG\r\n" } := by
  have hbuf : Marshal (arrayValue [bulkValue c]) =
      [42, 49] ++ CR :: LF :: ((36 :: natDigits c.length) ++ CR :: LF :: (c ++ CR :: LF :: [])) := by
    simp only [arrayValue, bulkValue, Marshal, marshalItems, Itoa_natCast]
    simp [natDigits, digitsAux, ARRAY, BULK]
  have hdig : CR ∉ 36 :: natDigits c.length := by
    intro h
    rcases List.mem_cons.mp h with h | h
    · simp [CR] at h
    · exact CR_not_mem_natDigits _ h
  have hsplit : splitCRLF (Marshal (arrayValue [bulkValue c])) =
      [[42, 49], 36 :: natDigits c.length, c, []] := by
    rw [hbuf, splitCRLF, splitCRLFAux_line [42, 49] [] _ (by simp [CR]),
      splitCRLFAux_line _ [] _ hdig, splitCRLFAux_line c [] _ hCR]
    simp [splitCRLFAux]
  have hcont : containsCRLF (Marshal (arrayValue [bulkValue c])) = true := by
    rw [hbuf]
    exact containsCRLF_line _ _
  have h1 : processCommand { buffer := Marshal (arrayValue [bulkValue c]), written := w } =
      { buffer := [], written := w ++ ascii "-ERR unknown command\r\n" } := by
    unfold processCommand
    simp only [hcont, hsplit, if_true]
    simp [hc]
  refine ⟨h1, by decide, by decide, ?_⟩
  rw [h1]
  rfl

/-- C15, at the command name `GET`. -/
theorem unknown_command_error_reply_witness :
    ascii "GET" ≠ ascii "PING" ∧ CR ∉ ascii "GET" ∧
    processCommand { buffer := Marshal (arrayValue [bulkValue (ascii "GET")]), written := [] } =
      { buffer := [], written := [] ++ ascii "-ERR unknown command\r\n" } :=
  ⟨by decide, by decide,
    (unknown_command_error_reply (ascii "GET") [] (by decide) (by decide)).1⟩

/-- C16: the replies do not follow the requests when the reads do not: two `PING` requests
delivered in one read get one `+PONG\r\n`, the second request being dropped by
`buffer.Reset()`; one `PING` request delivered in two reads (cut after its array
header) gets two error replies; two `PING` requests in two reads get their two
replies. -/
theorem replies_depend_on_reads :
    handleConnection [ascii "*1\r\n$4\r\nPING\r\n" ++ ascii "*1\r\n$4\r\nPING\r\n"] =
      { buffer := [], written := ascii "+PONG\r\n" } ∧
    handleConnection [ascii "*1\r\n", ascii "$4\r\nPING\r\n"] =
      { buffer := [],
        written := ascii "-ERR unknown command\r\n" ++ ascii "-ERR unknown command\r\n" } ∧
    handleConnection [ascii "*1\r\n$4\r\nPING\r\n", ascii "*1\r\n$4\r\nPING\r\n"] =
      { buffer := [], written := ascii "+PONG\r\n" ++ ascii "+PONG\r\n" } := by
  refine ⟨?_, ?_, ?_⟩ <;> rfl

/-- C17: a request cut after its array header line is answered at once: on the buffer `*1\r\n`,
a proper prefix of the `PING` request, `processCommand` writes an error reply and
clears the buffer; only a buffer without any CR LF is left to accumulate. -/
theorem incomplete_request_is_answered :
    ascii "*1\r\n" ++ ascii "$4\r\nPING\r\n" = Marshal (arrayValue [bulkValue (ascii "PING")]) ∧
    processCommand { buffer := ascii "*1\r\n", written := [] } =
      { buffer := [], written := ascii "-ERR unknown command\r\n" } ∧
    processCommand { buffer := ascii "*1\r\n$4\r\nPI", written := [] } =
      { buffer := [], written := ascii "-ERR unknown command\r\n" } ∧
    processCommand { buffer := ascii "*1\r", written := [] } =
      { buffer := ascii "*1\r", written := [] } := by
  refine ⟨?_, ?_, ?_, ?_⟩ <;> rfl

/-- C18: the decoder is not total: a negative count, a negative length, a length line of one
byte and a line made of a single LF each end in a run-time panic (`make` with a
negative size, slice bounds out of range). -/
theorem decoder_panics :
    (Read [ascii "*-1\r\n"]).1 = .panic ∧
    (Read [ascii "$-5\r\n"]).1 = .panic ∧
    (Read [ascii "$-2\r\n"]).1 = .panic ∧
    (Read [ascii "$", ascii "5"]).1 = .panic ∧
    (Read [ascii "*", ascii "3"]).1 = .panic ∧
    (Read [ascii "+\n"]).1 = .panic ∧
    (Read [ascii "*1\r\n", ascii "*-7\r\n"]).1 = .panic := by
  refine ⟨?_, ?_, ?_, ?_, ?_, ?_, ?_⟩ <;> rfl

/-- C19: on the values built only from simple strings and errors (text without CR or LF), bulk
strings, null and arrays of such values, with the unused fields at their zero
value, `Marshal` is injective. -/
theorem marshal_injective_on_canonical (a b : Value) (ha : Canonical a) (hb : Canonical b)
    (h : Marshal a = Marshal b) : a = b :=
  (Marshal_prefix_free a ha b hb [] [] (by rw [h])).1

/-- C19, at the array of the bulk string `a\r\n`, the null value and the simple string `OK`. -/
theorem marshal_injective_on_canonical_witness :
    Canonical (arrayValue [bulkValue (ascii "a\r\n"), nullValue, simpleString (ascii "OK")]) ∧
    Marshal (arrayValue [bulkValue (ascii "a\r\n"), nullValue, simpleString (ascii "OK")]) =
      Marshal (.mk "array" [] 0 [] [.mk "bulk" [] 0 [97, 13, 10] [], .mk "null" [] 0 [] [],
        .mk "string" [79, 75] 0 [] []]) ∧
    arrayValue [bulkValue (ascii "a\r\n"), nullValue, simpleString (ascii "OK")] =
      .mk "array" [] 0 [] [.mk "bulk" [] 0 [97, 13, 10] [], .mk "null" [] 0 [] [],
        .mk "string" [79, 75] 0 [] []] :=
  have hc : Canonical
      (arrayValue [bulkValue (ascii "a\r\n"), nullValue, simpleString (ascii "OK")]) :=
    Canonical.array _ (by
      intro v hv
      simp only [List.mem_cons, List.mem_singleton, List.not_mem_nil, or_false] at hv
      rcases hv with rfl | rfl | rfl
      · exact Canonical.bulk _
      · exact Canonical.null
      · exact Canonical.string _ (by decide) (by decide))
  ⟨hc, rfl, marshal_injective_on_canonical _ _ hc hc rfl⟩

end SnapCache
